import Mathlib

/-!
Shallow embedding of the archery columnar kernels (sorting.go, aggregation.go,
record.go) and proofs of the specification's testable properties.

A typed Arrow column is modelled as `List (Option α)`: `none` is a null slot,
`some v` a valid value.  The per-type dispatch arms of the Go kernels are all
instances of one algorithm at different element types, so they are embedded
once, parametrised by the element type and by the boolean comparison the arm
uses (`<` for the numeric and string arms, `!a && b` for the boolean arm).
-/

namespace Archery

/-- Sort order enum from sorting.go: `Ascending | Descending`. -/
inductive SortOrder where
  | Ascending
  | Descending
deriving DecidableEq, Repr

/-- `input.NullN()`: the number of null slots of a column. -/
def nullN {α : Type _} (arr : List (Option α)) : Nat :=
  arr.countP (fun x => x.isNone)

/-- The non-null values of a column, in order (what the Go kernels see when
they skip `IsNull` slots). -/
def nonNullVals {α : Type _} (arr : List (Option α)) : List α :=
  arr.filterMap id

/-- The comparator closure passed to `sort.SliceStable` by `SortIndices`
(sorting.go lines 40-171), acting on positions `i j` of the column `arr`:
if the value at `i` is null it reports `true`; else if the value at `j` is
null it reports `false`; else it compares the two values with the arm's
comparison, with the operand order flipped for `Descending`. -/
def goLess {α : Type _} (lt : α → α → Bool) (arr : List (Option α))
    (ord : SortOrder) (i j : Nat) : Bool :=
  match arr.getD i none, arr.getD j none with
  | none, _ => true
  | some _, none => false
  | some a, some b =>
    match ord with
    | SortOrder.Ascending => lt a b
    | SortOrder.Descending => lt b a

/-- One insertion step of Go's insertion sort, with the accumulated run kept
reversed (head = current rightmost element): the new element `x` moves past
`y` exactly while `less x y` reports true, as in Go's
`for j := i; j > a && data.Less(j, j-1); j-- { data.Swap(j, j-1) }`. -/
def insertRight {ι : Type _} (less : ι → ι → Bool) (x : ι) : List ι → List ι
  | [] => [x]
  | y :: ys => if less x y then y :: insertRight less x ys else x :: y :: ys

/-- Model of Go's `sort.SliceStable`.  Go runs insertion sort on blocks of 20
elements and then stable symmetric merges; for inputs of at most 20 elements
that is exactly insertion sort, and whenever the comparator satisfies the
strict-weak-ordering contract that `sort.SliceStable` documents, the result is
the unique stable order, which plain insertion sort also computes. -/
def goSliceStable {ι : Type _} (less : ι → ι → Bool) (l : List ι) : List ι :=
  (l.foldl (fun acc x => insertRight less x acc) []).reverse

/-- `SortIndices` (sorting.go lines 29-178): initialise `indices = [0..n)` and
stable-sort them with the null-first comparator.  The supported-type arms are
identical up to the element type and its `lt`; unsupported types error before
reaching this computation and are not modelled. -/
def sortIndices {α : Type _} (lt : α → α → Bool) (arr : List (Option α))
    (ord : SortOrder) : List Nat :=
  goSliceStable (goLess lt arr ord) (List.range arr.length)

/-- The comparison of the `INT64`/`INT8`/... arms: Go `<` on integers. -/
def intLt (a b : Int) : Bool := decide (a < b)

/-- The comparison of the `BOOL` arm of `SortIndices`: ascending uses
`!boolArr.Value(i) && boolArr.Value(j)`, i.e. `false < true`. -/
def boolLt (a b : Bool) : Bool := !a && b

/-- `TakeWithIndices` (sorting.go lines 181-263): gather `input` at the given
int64 indices, failing on the first index that is negative or at least the
input length, copying a null slot as a null. -/
def takeWithIndices {α : Type _} (arr : List (Option α)) :
    List Int → Except String (List (Option α))
  | [] => Except.ok []
  | i :: is =>
    if i < 0 ∨ (arr.length : Int) ≤ i then Except.error "index out of bounds"
    else
      match takeWithIndices arr is with
      | Except.error e => Except.error e
      | Except.ok rest => Except.ok (arr.getD i.toNat none :: rest)

/-- `Sort` (sorting.go lines 16-26): gather of the input by its
`SortIndices`. -/
def sortArr {α : Type _} (lt : α → α → Bool) (arr : List (Option α))
    (ord : SortOrder) : Except String (List (Option α)) :=
  takeWithIndices arr ((sortIndices lt arr ord).map (fun k => Int.ofNat k))

/-- Whether position `k` of column `arr` holds a null. -/
def nullAt {α : Type _} (arr : List (Option α)) (k : Nat) : Bool :=
  (arr.getD k none).isNone

section SortLemmas

variable {ι : Type _} {less : ι → ι → Bool}

theorem insertRight_perm (less : ι → ι → Bool) (x : ι) :
    ∀ l : List ι, List.Perm (insertRight less x l) (x :: l) := by
  intro l
  induction l with
  | nil => simp [insertRight]
  | cons y ys ih =>
    simp only [insertRight]
    by_cases h : less x y = true
    · simp only [h, if_true]
      exact ((ih.cons y).trans (List.Perm.swap x y ys))
    · simp [h]

theorem mem_insertRight {less : ι → ι → Bool} {x b : ι} {l : List ι}
    (h : b ∈ insertRight less x l) : b = x ∨ b ∈ l := by
  have := (insertRight_perm less x l).mem_iff.mp h
  simpa using this

theorem foldl_insertRight_perm (less : ι → ι → Bool) :
    ∀ (l acc : List ι),
      List.Perm (l.foldl (fun acc x => insertRight less x acc) acc) (l ++ acc) := by
  intro l
  induction l with
  | nil => intro acc; simp
  | cons x xs ih =>
    intro acc
    have h1 := ih (insertRight less x acc)
    have h2 : List.Perm (xs ++ insertRight less x acc) (xs ++ (x :: acc)) :=
      List.Perm.append_left xs (insertRight_perm less x acc)
    have h3 : List.Perm (xs ++ (x :: acc)) (x :: (xs ++ acc)) := List.perm_middle
    simpa using (h1.trans (h2.trans h3))

theorem goSliceStable_perm (less : ι → ι → Bool) (l : List ι) :
    List.Perm (goSliceStable less l) l := by
  unfold goSliceStable
  have h1 : List.Perm (l.foldl (fun acc x => insertRight less x acc) []).reverse
      (l.foldl (fun acc x => insertRight less x acc) []) :=
    List.reverse_perm _
  have h2 := foldl_insertRight_perm less l []
  simpa using h1.trans h2

theorem sortIndices_perm {α : Type _} (lt : α → α → Bool)
    (arr : List (Option α)) (ord : SortOrder) :
    List.Perm (sortIndices lt arr ord) (List.range arr.length) :=
  goSliceStable_perm _ _

/-- Insertion with a comparator that sends every flagged element below
everything, and never sends an unflagged element below a flagged one,
preserves the pairwise invariant "a flagged element is followed only by
flagged elements". -/
theorem insertRight_pairwise {pred : ι → Bool}
    (hT : ∀ a b, pred a = true → less a b = true)
    (hF : ∀ a b, pred a = false → pred b = true → less a b = false)
    (x : ι) :
    ∀ l : List ι, l.Pairwise (fun a b => pred a = true → pred b = true) →
      (insertRight less x l).Pairwise
        (fun a b => pred a = true → pred b = true) := by
  intro l
  induction l with
  | nil => intro _; simp [insertRight]
  | cons y ys ih =>
    intro hp
    rw [List.pairwise_cons] at hp
    obtain ⟨hy, hys⟩ := hp
    simp only [insertRight]
    by_cases h : less x y = true
    · simp only [h, if_true, List.pairwise_cons]
      refine ⟨?_, ih hys⟩
      intro b hb hpy
      rcases mem_insertRight hb with rfl | hb'
      · by_contra hpx
        have hpx' : pred b = false := by
          cases hx : pred b
          · rfl
          · exact absurd hx hpx
        have := hF b y hpx' hpy
        rw [this] at h
        exact absurd h (by simp)
      · exact hy b hb' hpy
    · simp only [h, if_false, List.pairwise_cons]
      constructor
      · intro b _ hpx
        exact absurd (hT x y hpx) h
      · exact List.pairwise_cons.mpr ⟨hy, hys⟩

theorem foldl_insertRight_pairwise {pred : ι → Bool}
    (hT : ∀ a b, pred a = true → less a b = true)
    (hF : ∀ a b, pred a = false → pred b = true → less a b = false) :
    ∀ (l acc : List ι),
      acc.Pairwise (fun a b => pred a = true → pred b = true) →
      (l.foldl (fun acc x => insertRight less x acc) acc).Pairwise
        (fun a b => pred a = true → pred b = true) := by
  intro l
  induction l with
  | nil => intro acc hacc; simpa using hacc
  | cons x xs ih =>
    intro acc hacc
    exact ih (insertRight less x acc) (insertRight_pairwise hT hF x acc hacc)

/-- In the output of `goSliceStable` with a null-first style comparator, an
unflagged element is never followed by a flagged one. -/
theorem goSliceStable_pairwise (pred : ι → Bool)
    (hT : ∀ a b, pred a = true → less a b = true)
    (hF : ∀ a b, pred a = false → pred b = true → less a b = false)
    (l : List ι) :
    (goSliceStable less l).Pairwise
      (fun a b => pred b = true → pred a = true) := by
  unfold goSliceStable
  rw [List.pairwise_reverse]
  exact foldl_insertRight_pairwise hT hF l [] (by simp)

theorem sortIndices_nulls_pairwise {α : Type _} (lt : α → α → Bool)
    (arr : List (Option α)) (ord : SortOrder) :
    (sortIndices lt arr ord).Pairwise
      (fun a b => nullAt arr b = true → nullAt arr a = true) := by
  unfold sortIndices
  apply goSliceStable_pairwise (fun k => nullAt arr k)
  · intro a b ha
    unfold goLess
    unfold nullAt at ha
    cases hx : arr.getD a none with
    | none => simp [hx]
    | some v => rw [hx] at ha; simp at ha
  · intro a b ha hb
    unfold goLess
    unfold nullAt at ha hb
    cases hx : arr.getD a none with
    | none => rw [hx] at ha; simp at ha
    | some v =>
      cases hy : arr.getD b none with
      | none => simp [hx, hy]
      | some w => rw [hy] at hb; simp at hb

end SortLemmas

/-- C2: in the index array returned by `SortIndices`, for any comparator arm
and both orders, every position holding a null value precedes every position
holding a non-null value. -/
theorem sortIndices_nulls_first {α : Type _} (lt : α → α → Bool)
    (arr : List (Option α)) (ord : SortOrder) (i j : Nat)
    (hi : i < (sortIndices lt arr ord).length)
    (hj : j < (sortIndices lt arr ord).length)
    (hnull : nullAt arr ((sortIndices lt arr ord).getD i 0) = true)
    (hval : nullAt arr ((sortIndices lt arr ord).getD j 0) = false) :
    i < j := by
  set p := sortIndices lt arr ord with hp
  rcases Nat.lt_trichotomy i j with h | h | h
  · exact h
  · subst h
    rw [hnull] at hval
    exact absurd hval (by simp)
  · exfalso
    have hpair := sortIndices_nulls_pairwise lt arr ord
    rw [← hp] at hpair
    have := List.pairwise_iff_getElem.mp hpair j i hj hi h
    rw [List.getD_eq_getElem p 0 hi] at hnull
    rw [List.getD_eq_getElem p 0 hj] at hval
    have := this hnull
    rw [hval] at this
    exact absurd this (by simp)

/-- Closed witness for `sortIndices_nulls_first` at a concrete input. -/
theorem sortIndices_nulls_first_witness :
    (0 : Nat) < 2 :=
  sortIndices_nulls_first intLt [some 1, none, none] SortOrder.Ascending 0 2
    (by decide) (by decide) (by decide) (by decide)

/-- C6: for any comparator arm and both orders, the index array returned by
`SortIndices` on a column of length `n` has length `n` and contains every
integer in `[0, n)` exactly once. -/
theorem sortIndices_bijection {α : Type _} (lt : α → α → Bool)
    (arr : List (Option α)) (ord : SortOrder) :
    (sortIndices lt arr ord).length = arr.length ∧
      ∀ k, k < arr.length → (sortIndices lt arr ord).count k = 1 := by
  have hperm := sortIndices_perm lt arr ord
  constructor
  · simpa using hperm.length_eq
  · intro k hk
    rw [hperm.count_eq]
    exact List.count_eq_one_of_mem (List.nodup_range _) (List.mem_range.mpr hk)

/-- Closed witness for `sortIndices_bijection` at a concrete input. -/
theorem sortIndices_bijection_witness :
    (sortIndices intLt [some 5, none, some 3] SortOrder.Descending).count 1 = 1 :=
  (sortIndices_bijection intLt [some 5, none, some 3] SortOrder.Descending).2
    1 (by decide)

/-- C1 (failing input): `SortIndices` on the two-element all-null int64 column
returns `[1, 0]`: the comparator reports each null as less than the other,
which breaks `sort.SliceStable`'s strict-weak-ordering contract, and the two
equal (null) elements come out in reversed relative order instead of the
original `[0, 1]`. -/
theorem sortIndices_null_pair_not_stable :
    sortIndices intLt [none, none] SortOrder.Ascending = [1, 0] ∧
      sortIndices intLt [none, none] SortOrder.Ascending ≠ [0, 1] := by
  constructor <;> decide

theorem takeWithIndices_ok {α : Type _} (arr : List (Option α)) :
    ∀ idxs : List Int, (∀ i ∈ idxs, 0 ≤ i ∧ i < (arr.length : Int)) →
      takeWithIndices arr idxs =
        Except.ok (idxs.map (fun i => arr.getD i.toNat none)) := by
  intro idxs
  induction idxs with
  | nil => intro _; rfl
  | cons i is ih =>
    intro hb
    obtain ⟨hi0, hilen⟩ := hb i (by simp)
    have hrest := ih (fun j hj => hb j (by simp [hj]))
    have hcond : ¬(i < 0 ∨ (arr.length : Int) ≤ i) := by
      push_neg
      exact ⟨hi0, hilen⟩
    unfold takeWithIndices
    rw [if_neg hcond, hrest]
    rfl

theorem sortIndices_mem_lt {α : Type _} (lt : α → α → Bool)
    (arr : List (Option α)) (ord : SortOrder) :
    ∀ k ∈ sortIndices lt arr ord, k < arr.length := by
  intro k hk
  have := (sortIndices_perm lt arr ord).mem_iff.mp hk
  exact List.mem_range.mp this

/-- C5: gathering a column by its own `SortIndices` is exactly `Sort`: both
succeed (the permutation indices are always in bounds) and produce the same
column, element for element, null slots included. -/
theorem take_sortIndices_eq_sort {α : Type _} (lt : α → α → Bool)
    (arr : List (Option α)) (ord : SortOrder) :
    ∃ out : List (Option α),
      takeWithIndices arr ((sortIndices lt arr ord).map (fun k => Int.ofNat k)) =
          Except.ok out ∧
        sortArr lt arr ord = Except.ok out ∧
        out.length = arr.length := by
  have hbound : ∀ i ∈ (sortIndices lt arr ord).map (fun k => Int.ofNat k),
      0 ≤ i ∧ i < (arr.length : Int) := by
    intro i hi
    rw [List.mem_map] at hi
    obtain ⟨k, hk, hke⟩ := hi
    subst hke
    refine ⟨Int.ofNat_nonneg k, ?_⟩
    have := sortIndices_mem_lt lt arr ord k hk
    rw [Int.ofNat_eq_natCast]
    exact_mod_cast this
  refine ⟨_, takeWithIndices_ok arr _ hbound, takeWithIndices_ok arr _ hbound, ?_⟩
  simp only [List.length_map]
  simpa using (sortIndices_perm lt arr ord).length_eq

/-- `NthElement` (sorting.go lines 266-316): range-check `n`, then look up the
`n`-th sorted index; a null at that position yields the Go pair
`(nil, nil)`, modelled as `Except.ok none`. -/
def nthElement {α : Type _} (lt : α → α → Bool) (arr : List (Option α))
    (n : Int) (ord : SortOrder) : Except String (Option α) :=
  if n < 0 ∨ (arr.length : Int) ≤ n then Except.error "index out of range"
  else Except.ok (arr.getD ((sortIndices lt arr ord).getD n.toNat 0) none)

/-- Whether an `Except` result is the error case. -/
def isErr {ε β : Type _} : Except ε β → Bool
  | Except.error _ => true
  | Except.ok _ => false

/-- C7: `NthElement` fails exactly when `n < 0` or `n >= length`, and an
in-range rank whose element is null yields the no-value result `ok none`
rather than an error. -/
theorem nthElement_spec {α : Type _} (lt : α → α → Bool)
    (arr : List (Option α)) (n : Int) (ord : SortOrder) :
    (isErr (nthElement lt arr n ord) = true ↔
        n < 0 ∨ (arr.length : Int) ≤ n) ∧
      (0 ≤ n → n < (arr.length : Int) →
        arr.getD ((sortIndices lt arr ord).getD n.toNat 0) none = none →
        nthElement lt arr n ord = Except.ok none) := by
  constructor
  · unfold nthElement
    by_cases h : n < 0 ∨ (arr.length : Int) ≤ n
    · simp [h, isErr]
    · simp [h, isErr]
  · intro h0 hlen hnull
    unfold nthElement
    rw [if_neg (by push_neg; exact ⟨h0, hlen⟩), hnull]

/-- Closed witness for `nthElement_spec` at a concrete input: the column
`[3, null]` sorts null first, so rank 0 is in range and yields `ok none`. -/
theorem nthElement_spec_witness :
    nthElement intLt [some 3, none] 0 SortOrder.Ascending = Except.ok none :=
  (nthElement_spec intLt [some 3, none] 0 SortOrder.Ascending).2
    (by decide) (by decide) (by decide)

/-- `Min` (aggregation.go lines 64-210), INT64 arm.  The Go function returns
the pair `(nil, nil)` — no value and no error — when the input is empty or
all-null; otherwise it seeds with the first non-null value and scans for a
smaller one.  `(nil, nil)` is modelled as `Except.ok none`. -/
def minInt64 (arr : List (Option Int)) : Except String (Option Int) :=
  if arr.length = 0 ∨ arr.length = nullN arr then Except.ok none
  else
    match nonNullVals arr with
    | [] => Except.ok none
    | v :: vs => Except.ok (some (vs.foldl (fun m x => if x < m then x else m) v))

/-- `Max` (aggregation.go lines 213-359), INT64 arm, mirroring `minInt64`. -/
def maxInt64 (arr : List (Option Int)) : Except String (Option Int) :=
  if arr.length = 0 ∨ arr.length = nullN arr then Except.ok none
  else
    match nonNullVals arr with
    | [] => Except.ok none
    | v :: vs => Except.ok (some (vs.foldl (fun m x => if m < x then x else m) v))

/-- `Mean` (aggregation.go lines 45-61): 0 for empty or all-null input, else
the sum of the non-null values divided by their number.  Go computes in
float64; the arithmetic is modelled exactly in `ℚ`. -/
def meanInt64 (arr : List (Option Int)) : ℚ :=
  if arr.length = 0 ∨ arr.length = nullN arr then 0
  else (((nonNullVals arr).foldl (fun s x => s + x) 0 : Int) : ℚ) /
    ((nonNullVals arr).length : ℚ)

/-- `Variance` (aggregation.go lines 427-507), INT64 arm: 0 for empty or
all-null input; otherwise sum the squared deviations from the mean over the
non-null values, return 0 when fewer than two of them exist, else divide by
their count (population variance).  float64 arithmetic is modelled in `ℚ`. -/
def varianceInt64 (arr : List (Option Int)) : Except String ℚ :=
  if arr.length = 0 ∨ arr.length = nullN arr then Except.ok 0
  else
    let m := meanInt64 arr
    let ssd := ((nonNullVals arr).map
      (fun x => ((x : ℚ) - m) * ((x : ℚ) - m))).sum
    let count : ℚ := ((nonNullVals arr).length : ℚ)
    if count ≤ 1 then Except.ok 0 else Except.ok (ssd / count)

/-- Every slot of a column is a null or a non-null value, so the two tallies
sum to the length. -/
theorem nullN_add_nonNull_length {α : Type _} (arr : List (Option α)) :
    nullN arr + (nonNullVals arr).length = arr.length := by
  induction arr with
  | nil => rfl
  | cons x xs ih =>
    cases x <;>
      simp [nullN, nonNullVals, List.countP_cons, List.filterMap_cons] at * <;>
      omega

/-- C4 (counterexample): on the empty int64 column and the all-null column,
`Min` and `Max` return `(nil, nil)` — not an error — and on a single-value
column (one non-null value, fewer than two) `Variance` returns `(0, nil)`,
not an error. -/
theorem min_max_variance_no_error :
    isErr (minInt64 []) = false ∧ minInt64 [] = Except.ok none ∧
      isErr (maxInt64 [none]) = false ∧ maxInt64 [none] = Except.ok none ∧
      isErr (varianceInt64 [some 1]) = false ∧
      varianceInt64 [some 1] = Except.ok 0 := by
  refine ⟨rfl, rfl, rfl, rfl, rfl, rfl⟩

/-- C4 (amended): for every int64 column that is empty or all-null, `Min` and
`Max` return the no-value result `(nil, nil)` with no error, and `Variance`
returns `(0, nil)` with no error whenever fewer than two non-null values
exist. -/
theorem min_max_variance_degenerate (arr : List (Option Int)) :
    ((arr.length = 0 ∨ ∀ x ∈ arr, x = none) →
      minInt64 arr = Except.ok none ∧ maxInt64 arr = Except.ok none) ∧
    ((nonNullVals arr).length < 2 → varianceInt64 arr = Except.ok 0) := by
  have hdeg : (arr.length = 0 ∨ ∀ x ∈ arr, x = none) →
      (arr.length = 0 ∨ arr.length = nullN arr) := by
    rintro (h | h)
    · exact Or.inl h
    · right
      unfold nullN
      rw [Eq.comm, List.countP_eq_length]
      intro a ha
      rw [h a ha]
      rfl
  constructor
  · intro h
    have := hdeg h
    unfold minInt64 maxInt64
    rw [if_pos this, if_pos this]
    exact ⟨rfl, rfl⟩
  · intro h
    unfold varianceInt64
    by_cases hd : arr.length = 0 ∨ arr.length = nullN arr
    · rw [if_pos hd]
    · rw [if_neg hd]
      have hle : ((nonNullVals arr).length : ℚ) ≤ 1 := by
        have : (nonNullVals arr).length ≤ 1 := by omega
        exact_mod_cast this
      simp only [hle, if_pos]

/-- Closed witness for `min_max_variance_degenerate` at concrete inputs. -/
theorem min_max_variance_degenerate_witness :
    minInt64 [none, none] = Except.ok none ∧
      varianceInt64 [some 7] = Except.ok 0 :=
  ⟨((min_max_variance_degenerate [none, none]).1
      (Or.inr (by intro x hx; simpa using hx))).1,
    (min_max_variance_degenerate [some 7]).2 (by decide)⟩

/-- `Mode` (aggregation.go lines 362-424), BOOL arm: `(nil, nil)` on an empty
or all-null column, else count the non-null `true`s and `false`s and return
`true` precisely when the former strictly exceeds the latter. -/
def modeBool (arr : List (Option Bool)) : Except String (Option Bool) :=
  if arr.length = 0 ∨ arr.length = nullN arr then Except.ok none
  else
    Except.ok (some (decide (arr.countP (fun x => x == some false) <
      arr.countP (fun x => x == some true))))

/-- C10: on a boolean column with at least one non-null slot, `Mode` returns
`true` exactly when the count of non-null `true`s strictly exceeds the count
of non-null `false`s; in particular a tie yields `false`. -/
theorem modeBool_spec (arr : List (Option Bool))
    (h : nullN arr < arr.length) :
    (modeBool arr = Except.ok (some true) ↔
        arr.countP (fun x => x == some false) <
          arr.countP (fun x => x == some true)) ∧
    (arr.countP (fun x => x == some false) =
        arr.countP (fun x => x == some true) →
      modeBool arr = Except.ok (some false)) := by
  have hcond : ¬(arr.length = 0 ∨ arr.length = nullN arr) := by
    push_neg
    constructor
    · omega
    · omega
  unfold modeBool
  rw [if_neg hcond]
  constructor
  · constructor
    · intro he
      have h1 := Except.ok.inj he
      have h2 := Option.some.inj h1
      exact of_decide_eq_true h2
    · intro hlt
      rw [decide_eq_true hlt]
  · intro heq
    rw [heq]
    simp

/-- Closed witness for `modeBool_spec`: a tie (one true, one false) yields
`false`. -/
theorem modeBool_spec_witness :
    modeBool [some true, some false, none] = Except.ok (some false) :=
  (modeBool_spec [some true, some false, none] (by decide)).2 (by decide)

/-- `UniqueValues` (sorting.go lines 349-443), INT64 and FLOAT64 arms: the Go
code collects the distinct non-null values as the keys of a map, sorts them
ascending with `sort.Slice`, and emits one leading null when any null was
seen.  The map-key set is modelled as `dedup` of the value sequence; any
correct sort of a duplicate-free list yields the same result, so Mathlib's
insertion sort stands in for `sort.Slice`.  The FLOAT64 arm is this same
algorithm at float values, modelled by a linear order (exact for all
non-NaN floats; Go's `==`/`<` on NaN are not a linear order and are out of
scope). -/
def uniqueValues {α : Type} [LinearOrder α] [DecidableEq α]
    (arr : List (Option α)) : List (Option α) :=
  (if arr.any (fun x => x.isNone) then [none] else []) ++
    (List.insertionSort (· ≤ ·) (nonNullVals arr).dedup).map some

/-- `UniqueValues`, BOOL arm: scan for the presence of null, `false` and
`true`, then append a null, a `false` and a `true` in that order, each only
if present. -/
def uniqueValuesBool (arr : List (Option Bool)) : List (Option Bool) :=
  (if arr.any (fun x => x.isNone) then [none] else []) ++
    (if arr.any (fun x => x == some false) then [some false] else []) ++
    (if arr.any (fun x => x == some true) then [some true] else [])

theorem any_isNone_iff {α : Type _} (arr : List (Option α)) :
    arr.any (fun x => x.isNone) = true ↔ none ∈ arr := by
  rw [List.any_eq_true]
  constructor
  · rintro ⟨x, hx, hnone⟩
    cases x with
    | none => exact hx
    | some v => simp at hnone
  · intro h
    exact ⟨none, h, rfl⟩

theorem mem_nonNullVals {α : Type _} {arr : List (Option α)} {v : α} :
    v ∈ nonNullVals arr ↔ some v ∈ arr := by
  unfold nonNullVals
  rw [List.mem_filterMap]
  constructor
  · rintro ⟨a, ha, hav⟩
    rw [show id a = a from rfl] at hav
    exact hav ▸ ha
  · intro h
    exact ⟨some v, h, rfl⟩

theorem any_beq_some_iff {α : Type _} [DecidableEq α] (arr : List (Option α))
    (b : α) : arr.any (fun x => x == some b) = true ↔ some b ∈ arr := by
  rw [List.any_eq_true]
  constructor
  · rintro ⟨x, hx, hxb⟩
    rw [beq_iff_eq] at hxb
    exact hxb ▸ hx
  · intro h
    exact ⟨some b, h, beq_self_eq_true _⟩

theorem count_some_map_some {α : Type _} [DecidableEq α] (l : List α) (v : α) :
    (l.map some).count (some v) = l.count v := by
  induction l with
  | nil => rfl
  | cons a l ih =>
    rw [List.map_cons, List.count_cons, List.count_cons, ih]
    have hb : (some a == some v) = (a == v) := rfl
    rw [hb]

theorem count_none_map_some {α : Type _} [DecidableEq α] (l : List α) :
    (l.map some).count (none : Option α) = 0 := by
  induction l with
  | nil => rfl
  | cons a l ih =>
    rw [List.map_cons, List.count_cons, ih]
    have hb : (some a == (none : Option α)) = false := rfl
    rw [hb]
    rfl

theorem uniqueValues_count_some {α : Type} [LinearOrder α] [DecidableEq α]
    (arr : List (Option α)) (v : α) :
    (uniqueValues arr).count (some v) = if some v ∈ arr then 1 else 0 := by
  unfold uniqueValues
  rw [List.count_append]
  have h1 : ((if arr.any (fun x => x.isNone) then [none] else []) :
      List (Option α)).count (some v) = 0 := by
    split
    · have hb : ((none : Option α) == some v) = false := rfl
      rw [List.count_cons, List.count_nil, hb]
      rfl
    · rfl
  rw [h1, count_some_map_some, (List.perm_insertionSort _ _).count_eq,
    List.count_dedup]
  simp [mem_nonNullVals]

theorem uniqueValues_count_none {α : Type} [LinearOrder α] [DecidableEq α]
    (arr : List (Option α)) :
    (uniqueValues arr).count none = if none ∈ arr then 1 else 0 := by
  unfold uniqueValues
  rw [List.count_append]
  rw [count_none_map_some]
  by_cases h : arr.any (fun x => x.isNone) = true
  · rw [if_pos h, if_pos ((any_isNone_iff arr).mp h)]
    rfl
  · rw [if_neg h, if_neg (fun hm => h ((any_isNone_iff arr).mpr hm))]
    rfl

theorem uniqueValues_head {α : Type} [LinearOrder α] [DecidableEq α]
    (arr : List (Option α)) :
    (uniqueValues arr).head? = some none ↔ none ∈ arr := by
  unfold uniqueValues
  by_cases h : arr.any (fun x => x.isNone) = true
  · rw [if_pos h]
    simp [(any_isNone_iff arr).mp h]
  · have hnm : ¬ none ∈ arr := fun hm => h ((any_isNone_iff arr).mpr hm)
    rw [if_neg h, List.nil_append]
    constructor
    · intro hh
      exfalso
      cases hs : (List.insertionSort (· ≤ ·) (nonNullVals arr).dedup) with
      | nil => rw [hs] at hh; simp at hh
      | cons a l => rw [hs] at hh; simp at hh
    · intro hm
      exact absurd hm hnm

theorem uniqueValues_sorted {α : Type} [LinearOrder α] [DecidableEq α]
    (arr : List (Option α)) :
    ((uniqueValues arr).filterMap id).Sorted (· < ·) := by
  unfold uniqueValues
  rw [List.filterMap_append]
  have h1 : ((if arr.any (fun x => x.isNone) then [none] else []) :
      List (Option α)).filterMap id = [] := by
    split <;> rfl
  have h2 : ((List.insertionSort (· ≤ ·) (nonNullVals arr).dedup).map
      some).filterMap id = List.insertionSort (· ≤ ·) (nonNullVals arr).dedup := by
    rw [List.filterMap_map]
    simp
  rw [h1, h2, List.nil_append]
  exact List.Sorted.lt_of_le (List.sorted_insertionSort _ _)
    (((List.perm_insertionSort _ _).nodup_iff).mpr (List.nodup_dedup _))

/-- Sorting the duplicate-free values of a boolean list produces at most a
`false` followed by at most a `true`. -/
theorem insertionSort_dedup_bool (l : List Bool) :
    List.insertionSort (· ≤ ·) l.dedup =
      (if false ∈ l then [false] else []) ++
        (if true ∈ l then [true] else []) := by
  have hnd := l.nodup_dedup
  have hmf : false ∈ l.dedup ↔ false ∈ l := List.mem_dedup
  have hmt : true ∈ l.dedup ↔ true ∈ l := List.mem_dedup
  match hd : l.dedup with
  | [] =>
    rw [hd] at hmf hmt
    simp at hmf hmt
    simp [hmf, hmt]
  | [a] =>
    rw [hd] at hmf hmt
    cases a
    · simp at hmf hmt
      simp [hmf, hmt]
    · simp at hmf hmt
      simp [hmf, hmt]
  | [a, b] =>
    rw [hd] at hnd hmf hmt
    cases a <;> cases b
    · simp at hnd
    · simp at hmf hmt
      simp [hmf, hmt, List.insertionSort, List.orderedInsert]
    · simp at hmf hmt
      simp [hmf, hmt, List.insertionSort, List.orderedInsert]
    · simp at hnd
  | a :: b :: c :: rest =>
    exfalso
    rw [hd] at hnd
    simp [List.nodup_cons] at hnd
    obtain ⟨⟨hab, hac, -⟩, ⟨hbc, -⟩, -⟩ := hnd
    cases a <;> cases b <;> cases c <;> simp at hab hac hbc

/-- The BOOL arm of `UniqueValues` computes the same column as the generic
arm instantiated at `Bool`. -/
theorem uniqueValuesBool_eq (arr : List (Option Bool)) :
    uniqueValuesBool arr = uniqueValues arr := by
  unfold uniqueValuesBool uniqueValues
  rw [insertionSort_dedup_bool]
  by_cases hf : some false ∈ arr <;> by_cases ht : some true ∈ arr <;>
    simp [any_beq_some_iff, mem_nonNullVals, hf, ht]

/-- C8: for the supported types, `UniqueValues` returns each distinct
non-null input value exactly once (and no others), with the non-null values
sorted strictly ascending, preceded by at most one null which leads the
output and is present exactly when the input contains a null.  The first
conjunct covers the generic (INT64/FLOAT64-shaped) arm over any linearly
ordered value type; the second covers the BOOL arm. -/
theorem uniqueValues_spec :
    (∀ (α : Type) (_ : LinearOrder α) (_ : DecidableEq α)
      (arr : List (Option α)),
      (∀ v : α, (uniqueValues arr).count (some v) =
        if some v ∈ arr then 1 else 0) ∧
      ((uniqueValues arr).count none = if none ∈ arr then 1 else 0) ∧
      ((uniqueValues arr).head? = some none ↔ none ∈ arr) ∧
      ((uniqueValues arr).filterMap id).Sorted (· < ·)) ∧
    (∀ arr : List (Option Bool),
      (∀ v : Bool, (uniqueValuesBool arr).count (some v) =
        if some v ∈ arr then 1 else 0) ∧
      ((uniqueValuesBool arr).count none = if none ∈ arr then 1 else 0) ∧
      ((uniqueValuesBool arr).head? = some none ↔ none ∈ arr) ∧
      ((uniqueValuesBool arr).filterMap id).Sorted (· < ·)) := by
  constructor
  · intro α instL instD arr
    exact ⟨uniqueValues_count_some arr, uniqueValues_count_none arr,
      uniqueValues_head arr, uniqueValues_sorted arr⟩
  · intro arr
    rw [uniqueValuesBool_eq]
    exact ⟨uniqueValues_count_some arr, uniqueValues_count_none arr,
      uniqueValues_head arr, uniqueValues_sorted arr⟩

/-- `CountValues` (sorting.go lines 446-568), INT64/FLOAT64 arms: parallel
arrays of the sorted distinct non-null values (null bucket first when nulls
are present) and of their occurrence counts, the null bucket counting the
nulls as a unit. -/
def countValues {α : Type} [LinearOrder α] [DecidableEq α]
    (arr : List (Option α)) : List (Option α) × List Int :=
  ((if 0 < nullN arr then [none] else []) ++
      (List.insertionSort (· ≤ ·) (nonNullVals arr).dedup).map some,
    (if 0 < nullN arr then [(nullN arr : Int)] else []) ++
      (List.insertionSort (· ≤ ·) (nonNullVals arr).dedup).map
        (fun v => ((nonNullVals arr).count v : Int)))

/-- `CountValues`, BOOL arm: tallies of nulls, `false`s and `true`s, each
bucket emitted only when its count is positive. -/
def countValuesBool (arr : List (Option Bool)) :
    List (Option Bool) × List Int :=
  ((if 0 < nullN arr then [none] else []) ++
      (if 0 < arr.countP (fun x => x == some false) then [some false]
        else []) ++
      (if 0 < arr.countP (fun x => x == some true) then [some true] else []),
    (if 0 < nullN arr then [(nullN arr : Int)] else []) ++
      (if 0 < arr.countP (fun x => x == some false) then
        [(arr.countP (fun x => x == some false) : Int)] else []) ++
      (if 0 < arr.countP (fun x => x == some true) then
        [(arr.countP (fun x => x == some true) : Int)] else []))

/-- `Count` (aggregation.go lines 1274-1278): simply
`int64(input.Len() - input.NullN())`. -/
def countAgg {α : Type _} (arr : List (Option α)) : Int :=
  ((arr.length - nullN arr : Nat) : Int)

/-- `CountNull` (aggregation.go lines 1280-1283): `int64(input.NullN())`. -/
def countNullAgg {α : Type _} (arr : List (Option α)) : Int :=
  (nullN arr : Int)

theorem sum_map_indicator {α : Type _} [DecidableEq α] (a : α) :
    ∀ d : List α, d.Nodup →
      (d.map (fun v => if a == v then (1 : Nat) else 0)).sum =
        if a ∈ d then 1 else 0 := by
  intro d
  induction d with
  | nil => intro _; rfl
  | cons v d ih =>
    intro hnd
    rw [List.nodup_cons] at hnd
    obtain ⟨hvd, hnd⟩ := hnd
    rw [List.map_cons, List.sum_cons, ih hnd]
    by_cases hav : a = v
    · subst hav
      simp [hvd]
    · have hb : (a == v) = false := by
        rw [beq_eq_false_iff_ne]
        exact hav
      simp [hb, hav]

theorem sum_map_count_cons {α : Type _} [DecidableEq α] (a : α) (t : List α) :
    ∀ d : List α,
      (d.map (fun v => (a :: t).count v)).sum =
        (d.map (fun v => t.count v)).sum +
          (d.map (fun v => if a == v then (1 : Nat) else 0)).sum := by
  intro d
  induction d with
  | nil => rfl
  | cons v d ih =>
    rw [List.map_cons, List.sum_cons, List.map_cons, List.sum_cons,
      List.map_cons, List.sum_cons, ih, List.count_cons]
    omega

/-- Summing, over the distinct elements of a list, the number of occurrences
of each, gives the list's length. -/
theorem sum_dedup_count {α : Type _} [DecidableEq α] (l : List α) :
    (l.dedup.map (fun v => l.count v)).sum = l.length := by
  induction l with
  | nil => rfl
  | cons a t ih =>
    by_cases h : a ∈ t
    · rw [List.dedup_cons_of_mem h, sum_map_count_cons a t _, ih,
        sum_map_indicator a _ (List.nodup_dedup t),
        if_pos (List.mem_dedup.mpr h)]
      rfl
    · rw [List.dedup_cons_of_not_mem h, List.map_cons, List.sum_cons]
      have h1 : (a :: t).count a = 1 := by
        rw [List.count_cons, if_pos (beq_self_eq_true a),
          List.count_eq_zero.mpr h]
      have h2 : ((t.dedup).map (fun v => (a :: t).count v)).sum = t.length := by
        rw [sum_map_count_cons a t _, ih,
          sum_map_indicator a _ (List.nodup_dedup t),
          if_neg (fun hm => h (List.mem_dedup.mp hm))]
        omega
      simp only [h1, h2, List.length_cons]
      omega

theorem sum_if_pos_nat (c : Nat) :
    ((if 0 < c then [(c : Int)] else []) : List Int).sum = (c : Int) := by
  by_cases h : 0 < c
  · simp [h]
  · have hc : c = 0 := by omega
    simp [hc]

theorem sum_map_intCast {β : Type _} (f : β → Nat) :
    ∀ l : List β, (l.map (fun v => ((f v : Nat) : Int))).sum =
      (((l.map f).sum : Nat) : Int) := by
  intro l
  induction l with
  | nil => rfl
  | cons b l ih =>
    simp only [List.map_cons, List.sum_cons, ih]
    push_cast
    ring

theorem bool_counts_add (arr : List (Option Bool)) :
    nullN arr + arr.countP (fun x => x == some false) +
      arr.countP (fun x => x == some true) = arr.length := by
  induction arr with
  | nil => rfl
  | cons x xs ih =>
    cases x with
    | none =>
      simp [nullN, List.countP_cons] at *
      omega
    | some b =>
      cases b <;> simp [nullN, List.countP_cons] at * <;> omega

/-- C9: the counts column of `CountValues` sums to the input length (every
slot, null or not, is counted exactly once) — first conjunct for the generic
INT64/FLOAT64-shaped arm, second for the BOOL arm — and `Count` plus
`CountNull` equals the input length for every column. -/
theorem countValues_count_conservation :
    (∀ (α : Type) (_ : LinearOrder α) (_ : DecidableEq α)
      (arr : List (Option α)),
      (countValues arr).2.sum = (arr.length : Int)) ∧
    (∀ arr : List (Option Bool),
      (countValuesBool arr).2.sum = (arr.length : Int)) ∧
    (∀ (α : Type) (arr : List (Option α)),
      countAgg arr + countNullAgg arr = (arr.length : Int)) := by
  refine ⟨?_, ?_, ?_⟩
  · intro α instL instD arr
    unfold countValues
    rw [List.sum_append, sum_if_pos_nat, sum_map_intCast,
      ((List.perm_insertionSort _ _).map
        (fun v => (nonNullVals arr).count v)).sum_eq,
      sum_dedup_count]
    have := nullN_add_nonNull_length arr
    omega
  · intro arr
    unfold countValuesBool
    rw [List.sum_append, List.sum_append, sum_if_pos_nat, sum_if_pos_nat,
      sum_if_pos_nat]
    have := bool_counts_add arr
    omega
  · intro α arr
    unfold countAgg countNullAgg
    have hle : nullN arr ≤ arr.length := by
      unfold nullN
      exact List.countP_le_length _
    omega

/-- A group-key scalar of one of the exactly-modelled key column types of
`GroupBy` (record.go lines 554-565): INT64, STRING and BOOL.  (The FLOAT64
arm renders with Go's fixed six-decimal `%f`; its rounding is not modelled
here, and its collisions would only add to the one exhibited below.) -/
inductive KeyVal where
  | kInt (i : Int)
  | kStr (s : String)
  | kBool (b : Bool)
deriving DecidableEq, Repr

/-- Rendering of one key cell (record.go lines 548-566): a null renders as
the fixed token `NULL`; an int64 via `%d`; a string as itself; a bool via
`%t`. -/
def renderKey : Option KeyVal → String
  | none => "NULL"
  | some (KeyVal.kInt i) => toString i
  | some (KeyVal.kStr s) => s
  | some (KeyVal.kBool b) => if b then "true" else "false"

/-- The composite key of a row (record.go line 569): Go's
`fmt.Sprintf("%v", keyValues)` on a `[]string` joins the rendered tokens
with single spaces inside square brackets. -/
def compositeKey (t : List (Option KeyVal)) : String :=
  "[" ++ String.intercalate " " (t.map renderKey) ++ "]"

/-- The bucketing of `groupMap` (record.go lines 541-573): `rows` lists each
row's key tuple, and two rows land in the same bucket of the Go map exactly
when their composite key strings are equal. -/
def sameGroup (rows : List (List (Option KeyVal))) (i j : Nat) : Bool :=
  compositeKey (rows.getD i []) == compositeKey (rows.getD j [])

/-- C3 (counterexample): with a single STRING key column, the row whose key
is null and the row whose key is the literal string `NULL` render to the
same composite key and are placed in the same group, although their key
tuples are distinct (a null key equals only another null). -/
theorem groupBy_key_collision :
    sameGroup [[none], [some (KeyVal.kStr "NULL")]] 0 1 = true ∧
      ([none] : List (Option KeyVal)) ≠ [some (KeyVal.kStr "NULL")] := by
  constructor
  · rfl
  · intro h
    exact absurd (List.head_eq_of_cons_eq h) (by simp)

/-- C3 (amended): `GroupBy` places two rows in the same group exactly when
their string-rendered composite keys are equal; rows with equal key tuples
(null matching only null) therefore always share a group, but the converse
fails because distinct tuples can render to colliding keys. -/
theorem groupBy_same_group_iff (rows : List (List (Option KeyVal)))
    (i j : Nat) :
    (sameGroup rows i j = true ↔
      compositeKey (rows.getD i []) = compositeKey (rows.getD j [])) ∧
    (rows.getD i [] = rows.getD j [] → sameGroup rows i j = true) := by
  constructor
  · unfold sameGroup
    exact beq_iff_eq
  · intro h
    unfold sameGroup
    rw [h]
    exact beq_self_eq_true _

/-- Closed witness for `groupBy_same_group_iff` at a concrete input. -/
theorem groupBy_same_group_iff_witness :
    sameGroup [[some (KeyVal.kInt 4)], [some (KeyVal.kInt 4)]] 0 1 = true :=
  (groupBy_same_group_iff [[some (KeyVal.kInt 4)], [some (KeyVal.kInt 4)]]
    0 1).2 (by decide)

end Archery
